import Mathlib

/-!
Verification of the PintOS thread-scheduling core (threads/thread.c and
lib/fixed_point.h) against its natural-language specification.

The C code is shallowly embedded: C `int` values are modelled as `Int`
with an explicit 32-bit two's-complement wrap (`wrap32`) applied wherever
the C code performs 32-bit arithmetic or truncates a 64-bit intermediate
back to `int`.  The C arithmetic right shift on signed values (as produced
by gcc on x86, the PintOS target) is floor division (`Int.fdiv`); C's `/`
operator is truncation toward zero (`Int.tdiv`).
-/

namespace PintOS

/-- 32-bit two's-complement wrap-around: interprets an integer modulo 2^32
as a value in [-2^31, 2^31). -/
def wrap32 (x : Int) : Int := (x + 2 ^ 31) % 2 ^ 32 - 2 ^ 31

/-- MAX macro from lib/fixed_point.h. -/
def MAX (a b : Int) : Int := if a > b then a else b

/-- MIN macro from lib/fixed_point.h. -/
def MIN (a b : Int) : Int := if a < b then a else b

/-- FP_FIX from lib/fixed_point.h: `(a) << 16`, int → fixed-point. -/
def FP_FIX (a : Int) : Int := wrap32 (a * 2 ^ 16)

/-- FP_INT from lib/fixed_point.h: `(a) >> 16`, integer part (arithmetic
shift, i.e. floor division). -/
def FP_INT (a : Int) : Int := Int.fdiv a (2 ^ 16)

/-- FP_RND from lib/fixed_point.h: round fixed-point to int; both branches
end in an arithmetic right shift by 16 (floor division). -/
def FP_RND (a : Int) : Int :=
  if a ≥ 0 then Int.fdiv (wrap32 (a + 2 ^ 15)) (2 ^ 16)
  else Int.fdiv (wrap32 (a - 2 ^ 15)) (2 ^ 16)

/-- FP_ADD from lib/fixed_point.h. -/
def FP_ADD (a b : Int) : Int := wrap32 (a + b)

/-- FP_ADDI from lib/fixed_point.h: `(a) + ((n) << 16)`. -/
def FP_ADDI (a n : Int) : Int := wrap32 (a + wrap32 (n * 2 ^ 16))

/-- FP_SUB from lib/fixed_point.h. -/
def FP_SUB (a b : Int) : Int := wrap32 (a - b)

/-- FP_SUBI from lib/fixed_point.h: `(a) - ((n) << 16)`. -/
def FP_SUBI (a n : Int) : Int := wrap32 (a - wrap32 (n * 2 ^ 16))

/-- FP_ISUB from lib/fixed_point.h: `((n) << 16) - (a)`. -/
def FP_ISUB (n a : Int) : Int := wrap32 (wrap32 (n * 2 ^ 16) - a)

/-- FP_MUL from lib/fixed_point.h: widen to int64 (exact for 32-bit
inputs), shift right 16, truncate back to int. -/
def FP_MUL (a b : Int) : Int := wrap32 (Int.fdiv (a * b) (2 ^ 16))

/-- FP_MULI from lib/fixed_point.h: `(a) * (n)` in 32-bit int. -/
def FP_MULI (a n : Int) : Int := wrap32 (a * n)

/-- FP_DIV from lib/fixed_point.h: `((int64_t)(a) << 16) / (b)` truncated
back to int; C `/` truncates toward zero. -/
def FP_DIV (a b : Int) : Int := wrap32 (Int.tdiv (a * 2 ^ 16) b)

/-- FP_DIVI from lib/fixed_point.h: `(a) / (n)` in int. -/
def FP_DIVI (a n : Int) : Int := wrap32 (Int.tdiv a n)

/-- FP_IDIVI from lib/fixed_point.h:
`((int64_t)(m) << 32) / ((n) << 16)`; the divisor `(n) << 16` is computed
in 32-bit int (hence wrapped) before widening, the numerator is exact in
int64, and the quotient is truncated back to int. -/
def FP_IDIVI (m n : Int) : Int := wrap32 (Int.tdiv (m * 2 ^ 32) (wrap32 (n * 2 ^ 16)))

/-- Modelled from the spec: the priority range bound PRI_MIN comes from
threads/thread.h, which is not among the provided sources; the spec fixes
a range [PRI_MIN, PRI_MAX] and PintOS's standard value is 0. -/
def PRI_MIN : Int := 0

/-- Modelled from the spec: the priority range bound PRI_MAX comes from
threads/thread.h, which is not among the provided sources; the spec fixes
a range [PRI_MIN, PRI_MAX] and PintOS's standard value is 63. -/
def PRI_MAX : Int := 63

/-- thread_mlfqs_update_priority from threads/thread.c as a function of
the thread's recent_cpu and nice fields:
`t->priority = FP_INT(FP_SUBI(FP_ISUB(PRI_MAX, FP_DIVI(t->recent_cpu, 4)), 2 * t->nice));`
followed by the boundary check
`t->priority = MIN(MAX(t->priority, FP_FIX(PRI_MIN)), FP_FIX(PRI_MAX));`. -/
def thread_mlfqs_update_priority (recent_cpu nice : Int) : Int :=
  let p := FP_INT (FP_SUBI (FP_ISUB PRI_MAX (FP_DIVI recent_cpu 4)) (wrap32 (2 * nice)))
  MIN (MAX p (FP_FIX PRI_MIN)) (FP_FIX PRI_MAX)

/-- Mutable fields of a struct thread (threads/thread.c) relevant to the
priority-donation engine: the base priority, the effective priority, and
the priorities of the locks the thread currently holds (the `locks` list;
each lock is represented by its priority ceiling `lock->priority`). -/
structure ThreadC where
  base_priority : Int
  priority : Int
  locks : List Int
deriving DecidableEq

/-- thread_set_priority from threads/thread.c, acting on the current
thread.  Returns the updated thread together with a flag recording
whether thread_yield() was invoked.  Mirrors the code: in MLFQS mode it
returns immediately; otherwise it stores the new base priority and, if
the thread holds no locks or the new priority exceeds the current
effective priority, overwrites the effective priority and yields. -/
def thread_set_priority (mlfqs : Bool) (t : ThreadC) (new_priority : Int) :
    ThreadC × Bool :=
  if mlfqs then (t, false)
  else if t.locks.isEmpty || decide (new_priority > t.priority) then
    ({ t with base_priority := new_priority, priority := new_priority }, true)
  else
    ({ t with base_priority := new_priority }, false)

/-- Priority found at the front of the thread's `locks` list after
`list_sort(&t->locks, lock_cmp_priority, desc)` in
thread_update_priority.  lock_cmp_priority lives in threads/synch.c,
which is not among the provided sources; the spec describes `held_locks`
as ordered by priority ceiling descending, so the front of the sorted
list is the maximum held-lock priority, computed here directly. -/
def locksFrontPriority : List Int → Int
  | [] => 0
  | x :: xs => xs.foldl max x

/-- thread_update_priority from threads/thread.c: reset the effective
priority to base_priority, then, if the thread holds locks, raise it to
the maximum held-lock priority when that is higher. -/
def thread_update_priority (t : ThreadC) : ThreadC :=
  if t.locks.isEmpty then { t with priority := t.base_priority }
  else if locksFrontPriority t.locks > t.base_priority then
    { t with priority := locksFrontPriority t.locks }
  else
    { t with priority := t.base_priority }

/-- thread_release_lock from threads/thread.c: remove the released lock
(identified by its priority ceiling) from the `locks` list, then
recompute the effective priority via thread_update_priority. -/
def thread_release_lock (t : ThreadC) (lp : Int) : ThreadC :=
  thread_update_priority { t with locks := t.locks.erase lp }

/-- An entry of sleep_list (threads/thread.c): the sleeping thread's id
and its ticks_sleep wake deadline. -/
structure SleepEntry where
  tid : Int
  ticks_sleep : Int
deriving DecidableEq

/-- thread_foreach_wake from threads/thread.c: walk sleep_list from the
front; every entry whose ticks_sleep deadline has been reached is removed
and unblocked (collected in the first component, in traversal order); the
walk breaks at the first entry whose deadline lies in the future, leaving
it and everything behind it in the list (second component).  The code
also zeroes a woken thread's ticks_sleep field as it leaves the sleep
list; the woken entries are collected here with their original deadlines,
which identifies the same set of threads. -/
def thread_foreach_wake : List SleepEntry → Int → List SleepEntry × List SleepEntry
  | [], _ => ([], [])
  | e :: es, now =>
    if e.ticks_sleep ≤ now then
      ((e :: (thread_foreach_wake es now).1), (thread_foreach_wake es now).2)
    else ([], e :: es)

/-- Modelled from the spec: thread_sleep (threads/thread.c) inserts the
current thread into sleep_list with
`list_insert_ordered(&sleep_list, …, thread_cmp_ticks_sleep, asc)`;
list_insert_ordered lives in lib/kernel/list.c, which is not among the
provided sources.  Per the spec the sleep set is "ordered by
`sleep_until_tick` ascending": the new entry is placed before the first
entry with a strictly later deadline, i.e. after all entries with an
equal or earlier one. -/
def thread_sleep_insert (e : SleepEntry) : List SleepEntry → List SleepEntry
  | [] => [e]
  | x :: xs =>
    if e.ticks_sleep < x.ticks_sleep then e :: x :: xs
    else x :: thread_sleep_insert e xs

/-- Sleep-list ordering invariant: deadlines are ascending front to back. -/
def SleepSorted (l : List SleepEntry) : Prop :=
  l.Pairwise (fun a b => a.ticks_sleep ≤ b.ticks_sleep)

/-- An entry of ready_list (threads/thread.c): thread id, effective
priority at insertion, and a monotone stamp recording the order in which
threads became ready. -/
structure ReadyEntry where
  tid : Int
  priority : Int
  seq : Nat
deriving DecidableEq

/-- Modelled from the spec: thread_unblock and thread_yield
(threads/thread.c) insert into ready_list with
`list_insert_ordered(&ready_list, …, thread_cmp_priority, desc)`;
list_insert_ordered lives in lib/kernel/list.c, which is not among the
provided sources.  Per the spec the ready set keeps "descending-priority
order with FIFO tie-break": thread_cmp_priority with a descending aux
compares `t1->priority > t2->priority`, so the new entry is placed before
the first entry of strictly lower priority, i.e. after all entries of
priority greater than or equal to its own. -/
def insert_ready (e : ReadyEntry) : List ReadyEntry → List ReadyEntry
  | [] => [e]
  | x :: xs =>
    if e.priority > x.priority then e :: x :: xs
    else x :: insert_ready e xs

/-- next_thread_to_run from threads/thread.c: pop the front of
ready_list, or return the designated idle thread when the list is
empty (the idle thread is identified by its id). -/
def next_thread_to_run (idle_tid : Int) : List ReadyEntry → Int × List ReadyEntry
  | [] => (idle_tid, [])
  | x :: xs => (x.tid, xs)

/-- Ready-queue effect of thread_yield from threads/thread.c: the current
thread is reinserted in priority order unless it is the idle thread
(`if (current != idle_thread) list_insert_ordered(…)`). -/
def thread_yield_ready (current : ReadyEntry) (idle_tid : Int)
    (q : List ReadyEntry) : List ReadyEntry :=
  if current.tid = idle_tid then q else insert_ready current q

/-- One operation on the ready-queue manager: a thread with some id and
priority becomes ready (thread_unblock / thread_yield insertion), or the
scheduler dequeues the next thread (next_thread_to_run). -/
inductive ReadyOp where
  | enqueue (tid : Int) (priority : Int)
  | dequeue
deriving DecidableEq

/-- Run a sequence of ready-queue operations from a queue paired with a
fresh seq stamp: each enqueue inserts an entry carrying the next stamp,
each dequeue removes the front via next_thread_to_run. -/
def runOps : List ReadyOp → List ReadyEntry × Nat → List ReadyEntry × Nat
  | [], st => st
  | ReadyOp.enqueue i p :: ops, (q, n) =>
    runOps ops (insert_ready ⟨i, p, n⟩ q, n + 1)
  | ReadyOp.dequeue :: ops, (q, n) =>
    runOps ops ((next_thread_to_run 0 q).2, n)

/-- Ready-queue ordering invariant: descending priority front to back,
and ascending seq stamps (FIFO) among entries of equal priority. -/
def ReadyOrdered (q : List ReadyEntry) : Prop :=
  q.Pairwise (fun a b =>
    b.priority < a.priority ∨ (a.priority = b.priority ∧ a.seq < b.seq))

/-- The ready_threads count of thread_mlfqs_update_load_avg
(threads/thread.c): `list_size(&ready_list) + (thread_current() != idle_thread)`. -/
def mlfqs_ready_threads (ready_list_len : Nat) (running_is_idle : Bool) : Int :=
  (ready_list_len : Int) + (if running_is_idle then 0 else 1)

/-- thread_mlfqs_update_load_avg from threads/thread.c:
`load_avg = FP_ADD(FP_DIVI(FP_MULI(load_avg, 59), 60), FP_IDIVI(ready_threads, 60));`
as a function of the old load_avg, the length of ready_list and whether
the running thread is the idle thread. -/
def thread_mlfqs_update_load_avg (load_avg : Int) (ready_list_len : Nat)
    (running_is_idle : Bool) : Int :=
  FP_ADD (FP_DIVI (FP_MULI load_avg 59) 60)
    (FP_IDIVI (mlfqs_ready_threads ready_list_len running_is_idle) 60)

/-- Modelled from the spec: the per-second load-average formula
`load_avg = (59/60)·load_avg + (1/60)·ready_thread_count` evaluated in
17.16 fixed-point arithmetic — each product is formed first and then
divided by 60 with the C truncating division, `(1/60)·r` being the
fixed-point image `r·2^16` of the integer count divided by 60. -/
def spec_load_avg (l r : Int) : Int :=
  Int.tdiv (59 * l) 60 + Int.tdiv (r * 65536) 60

/-- A thread control block as visible through the all-threads list
(threads/thread.c): its id, name and priority. -/
structure TCB where
  tid : Int
  name : String
  priority : Int
deriving DecidableEq

/-- thread_from_tid from threads/thread.c: scan all_list front to back
and return the first thread whose tid matches; NULL (modelled as none)
when no live thread has the given tid. -/
def thread_from_tid (all_list : List TCB) (tid : Int) : Option TCB :=
  all_list.find? (fun t => decide (t.tid = tid))

/-- Modelled from the spec: TID_ERROR, the distinguished failure value
returned by thread_create, is defined in threads/thread.h, which is not
among the provided sources; its standard PintOS value is ((tid_t) -1). -/
def TID_ERROR : Int := -1

/-- allocate_tid from threads/thread.c: `tid = next_tid++` under
tid_lock — return the current counter value and the advanced counter. -/
def allocate_tid (next_tid : Int) : Int × Int := (next_tid, next_tid + 1)

/-- Tids handed out by k successive calls of allocate_tid starting from
a given counter value. -/
def allocate_tids : Nat → Int → List Int
  | 0, _ => []
  | k + 1, n => (allocate_tid n).1 :: allocate_tids k (allocate_tid n).2

/-- Scheduler state touched by thread_create (threads/thread.c): the
all-threads list, the ready queue with its became-ready stamp, and the
tid counter. -/
structure KernelState where
  all_list : List TCB
  ready_list : List ReadyEntry
  ready_seq : Nat
  next_tid : Int
deriving DecidableEq

/-- thread_create from threads/thread.c with the page-allocation outcome
made explicit (none models `palloc_get_page` returning NULL).  On
allocation failure it returns TID_ERROR at once, touching no scheduler
state; on success it initialises the thread (init_thread inserts it into
all_list; the position there is immaterial to the claims, so the ordered
insert is modelled as a cons), allocates a tid, and unblocks the new
thread into the ready queue.  The stack-frame setup for kernel_thread /
switch_entry / switch_threads (opaque context-switch collaborator state)
and the conditional yield of the creating thread after the unblock are
outside the modelled state and omitted; they occur after the
failure-return path this model is used to settle. -/
def thread_create (page : Option Unit) (name : String) (priority : Int)
    (s : KernelState) : Int × KernelState :=
  match page with
  | none => (TID_ERROR, s)
  | some _ =>
    let tid := (allocate_tid s.next_tid).1
    (tid,
      { all_list := ⟨tid, name, priority⟩ :: s.all_list,
        ready_list := insert_ready ⟨tid, priority, s.ready_seq⟩ s.ready_list,
        ready_seq := s.ready_seq + 1,
        next_tid := (allocate_tid s.next_tid).2 })

/-! ## Supporting lemmas -/

/-- Every tid handed out by a run of allocate_tid calls starting at n is
at least n. -/
lemma allocate_tids_ge (k : Nat) (n x : Int) (hx : x ∈ allocate_tids k n) :
    n ≤ x := by
  induction k generalizing n with
  | zero => cases hx
  | succ k ih =>
    rcases List.mem_cons.mp hx with rfl | hx
    · exact le_refl _
    · exact le_trans (by omega) (ih (n + 1) hx)

/-- allocate_tid hands out strictly ascending, never-reused tids. -/
lemma allocate_tids_ascending (k : Nat) (n : Int) :
    (allocate_tids k n).Pairwise (· < ·) := by
  induction k generalizing n with
  | zero => exact List.Pairwise.nil
  | succ k ih =>
    refine List.pairwise_cons.mpr ⟨?_, ih (n + 1)⟩
    intro x hx
    exact lt_of_lt_of_le (by simp only [allocate_tid]; omega)
      (allocate_tids_ge k (n + 1) x hx)

/-- thread_from_tid's scan finds the unique matching thread when tids are
pairwise distinct. -/
lemma find_tid_of_mem (all : List TCB) (tid : Int) (t : TCB)
    (hnd : (all.map TCB.tid).Nodup) (ht : t ∈ all) (htid : t.tid = tid) :
    thread_from_tid all tid = some t := by
  induction all with
  | nil => cases ht
  | cons u us ih =>
    have hnd2 : (u.tid :: us.map TCB.tid).Nodup := hnd
    have hu := (List.nodup_cons.mp hnd2).1
    by_cases hpu : u.tid = tid
    · have htu : t = u := by
        rcases List.mem_cons.mp ht with rfl | hts
        · rfl
        · exfalso
          have hmem : t.tid ∈ us.map TCB.tid := List.mem_map.mpr ⟨t, hts, rfl⟩
          rw [htid, ← hpu] at hmem
          exact hu hmem
      subst htu
      unfold thread_from_tid
      rw [List.find?_cons_of_pos _ (by simpa using hpu)]
    · have hts : t ∈ us := by
        rcases List.mem_cons.mp ht with rfl | hts
        · exact absurd htid hpu
        · exact hts
      unfold thread_from_tid
      rw [List.find?_cons_of_neg _ (by simpa using hpu)]
      exact ih (List.nodup_cons.mp hnd2).2 hts

/-- wrap32 is the identity on values already in 32-bit range. -/
lemma wrap32_eq_self (x : Int) (h1 : -(2 ^ 31) ≤ x) (h2 : x < 2 ^ 31) :
    wrap32 x = x := by
  unfold wrap32
  omega

/-- The fixed-point constant 60·2^16 does not overflow. -/
lemma wrap32_sixty_shift : wrap32 (60 * 2 ^ 16) = 3932160 := by
  decide

/-- Core of the load-average recomputation: for a non-negative load
average small enough that multiplying by 59 stays within 32 bits, and a
moderate ready-thread count, the fixed-point expression of
thread_mlfqs_update_load_avg computes exactly the spec formula. -/
lemma load_avg_core (l r : Int) (hl0 : 0 ≤ l) (hl : l ≤ 2 ^ 25)
    (hr0 : 0 ≤ r) (hr : r ≤ 10001) :
    FP_ADD (FP_DIVI (FP_MULI l 59) 60) (FP_IDIVI r 60) = spec_load_avg l r := by
  have e1 : FP_MULI l 59 = l * 59 := by
    unfold FP_MULI
    exact wrap32_eq_self _ (by omega) (by omega)
  have e2 : FP_DIVI (l * 59) 60 = l * 59 / 60 := by
    unfold FP_DIVI
    rw [Int.tdiv_eq_ediv (by omega) (by omega)]
    exact wrap32_eq_self _ (by omega) (by omega)
  have e3 : FP_IDIVI r 60 = r * 65536 / 60 := by
    unfold FP_IDIVI
    rw [wrap32_sixty_shift, Int.tdiv_eq_ediv (by positivity) (by norm_num)]
    have hcancel : r * 2 ^ 32 / 3932160 = r * 65536 / 60 := by omega
    rw [hcancel]
    exact wrap32_eq_self _ (by omega) (by omega)
  rw [e1, e2, e3]
  unfold FP_ADD spec_load_avg
  rw [Int.tdiv_eq_ediv (by omega) (by omega),
    Int.tdiv_eq_ediv (by omega) (by omega)]
  have : wrap32 (l * 59 / 60 + r * 65536 / 60) = l * 59 / 60 + r * 65536 / 60 :=
    wrap32_eq_self _ (by omega) (by omega)
  rw [this]
  omega

/-- Membership in insert_ready: the new entry plus the old ones. -/
lemma mem_insert_ready (a e : ReadyEntry) (l : List ReadyEntry) :
    a ∈ insert_ready e l ↔ a = e ∨ a ∈ l := by
  induction l with
  | nil => simp [insert_ready]
  | cons x xs ih =>
    unfold insert_ready
    by_cases hc : e.priority > x.priority
    · simp [hc]
    · simp only [hc, if_false, List.mem_cons, ih]
      tauto

/-- insert_ready preserves the ready-queue ordering invariant when the
inserted entry carries a fresh (maximal) seq stamp. -/
lemma readyOrdered_insert (e : ReadyEntry) (q : List ReadyEntry)
    (h : ReadyOrdered q) (hfresh : ∀ x ∈ q, x.seq < e.seq) :
    ReadyOrdered (insert_ready e q) := by
  induction q with
  | nil => exact List.pairwise_singleton _ _
  | cons x xs ih =>
    rcases List.pairwise_cons.mp h with ⟨hx, hxs⟩
    unfold insert_ready
    by_cases hc : e.priority > x.priority
    · simp only [hc, if_true]
      refine List.pairwise_cons.mpr ⟨?_, h⟩
      intro b hb
      rcases List.mem_cons.mp hb with rfl | hb
      · exact Or.inl hc
      · rcases hx b hb with hlt | ⟨heq, _⟩
        · exact Or.inl (lt_trans hlt hc)
        · exact Or.inl (heq ▸ hc)
    · simp only [hc, if_false]
      refine List.pairwise_cons.mpr
        ⟨?_, ih hxs (fun y hy => hfresh y (List.mem_cons_of_mem _ hy))⟩
      intro b hb
      rcases (mem_insert_ready b e xs).mp hb with rfl | hb
      · have hle : b.priority ≤ x.priority := not_lt.mp hc
        rcases lt_or_eq_of_le hle with hlt | heq
        · exact Or.inl hlt
        · exact Or.inr ⟨heq.symm, hfresh x (List.mem_cons_self _ _)⟩
      · exact hx b hb

/-- The list left behind by next_thread_to_run is the tail of the queue. -/
lemma next_thread_to_run_snd (i : Int) (q : List ReadyEntry) :
    (next_thread_to_run i q).2 = q.tail := by
  cases q <;> rfl

/-- Any sequence of ready-queue operations preserves the ordering
invariant and the freshness bound on seq stamps. -/
lemma runOps_invariant (ops : List ReadyOp) (q : List ReadyEntry) (n : Nat)
    (h : ReadyOrdered q) (hb : ∀ x ∈ q, x.seq < n) :
    ReadyOrdered (runOps ops (q, n)).1 ∧
      ∀ x ∈ (runOps ops (q, n)).1, x.seq < (runOps ops (q, n)).2 := by
  induction ops generalizing q n with
  | nil => exact ⟨h, hb⟩
  | cons op ops ih =>
    cases op with
    | enqueue i p =>
      apply ih
      · exact readyOrdered_insert ⟨i, p, n⟩ q h hb
      · intro x hx
        rcases (mem_insert_ready x ⟨i, p, n⟩ q).mp hx with rfl | hx
        · exact Nat.lt_succ_self n
        · exact Nat.lt_succ_of_lt (hb x hx)
    | dequeue =>
      apply ih
      · rw [next_thread_to_run_snd]
        exact List.Pairwise.sublist (List.tail_sublist q) h
      · intro x hx
        rw [next_thread_to_run_snd] at hx
        exact hb x ((List.tail_sublist q).subset hx)

/-- In a queue satisfying the ordering invariant, the front entry has
maximal priority and, among entries of equal priority, the least seq
stamp. -/
lemma readyOrdered_head (hd : ReadyEntry) (rest : List ReadyEntry)
    (h : ReadyOrdered (hd :: rest)) (x : ReadyEntry) (hx : x ∈ hd :: rest) :
    x.priority ≤ hd.priority ∧ (x.priority = hd.priority → hd.seq ≤ x.seq) := by
  rcases List.mem_cons.mp hx with rfl | hx
  · exact ⟨le_refl _, fun _ => le_refl _⟩
  · rcases (List.pairwise_cons.mp h).1 x hx with hlt | ⟨heq, hseq⟩
    · exact ⟨le_of_lt hlt, fun he => absurd (he ▸ hlt) (lt_irrefl _)⟩
    · exact ⟨le_of_eq heq.symm, fun _ => le_of_lt hseq⟩

/-- Entries after thread_sleep_insert: the old entries plus the new one. -/
lemma sleepInsert_subset (e : SleepEntry) (l : List SleepEntry) :
    thread_sleep_insert e l ⊆ e :: l := by
  induction l with
  | nil => simp [thread_sleep_insert]
  | cons x xs ih =>
    unfold thread_sleep_insert
    by_cases hc : e.ticks_sleep < x.ticks_sleep
    · simp [hc]
    · simp only [hc, if_false]
      intro a ha
      rcases List.mem_cons.mp ha with rfl | ha
      · exact List.mem_cons_of_mem _ (List.mem_cons_self _ _)
      · rcases List.mem_cons.mp (ih ha) with rfl | ha
        · exact List.mem_cons_self _ _
        · exact List.mem_cons_of_mem _ (List.mem_cons_of_mem _ ha)

/-- thread_sleep_insert preserves the ascending-deadline invariant, so
every sleep-list state built by thread_sleep is SleepSorted. -/
lemma sleepSorted_insert (e : SleepEntry) (l : List SleepEntry)
    (h : SleepSorted l) : SleepSorted (thread_sleep_insert e l) := by
  induction l with
  | nil => exact List.pairwise_singleton _ _
  | cons x xs ih =>
    rcases List.pairwise_cons.mp h with ⟨hx, hxs⟩
    unfold thread_sleep_insert
    by_cases hc : e.ticks_sleep < x.ticks_sleep
    · simp only [hc, if_true]
      refine List.pairwise_cons.mpr ⟨?_, h⟩
      intro b hb
      rcases List.mem_cons.mp hb with rfl | hb
      · exact le_of_lt hc
      · exact le_trans (le_of_lt hc) (hx b hb)
    · simp only [hc, if_false]
      refine List.pairwise_cons.mpr ⟨?_, ih hxs⟩
      intro b hb
      rcases List.mem_cons.mp (sleepInsert_subset e xs hb) with rfl | hb
      · exact not_lt.mp hc
      · exact hx b hb

/-- The woken prefix of thread_foreach_wake is a sublist of the input. -/
lemma wake_fst_sublist (l : List SleepEntry) (now : Int) :
    (thread_foreach_wake l now).1.Sublist l := by
  induction l with
  | nil => simp [thread_foreach_wake]
  | cons e es ih =>
    unfold thread_foreach_wake
    by_cases hc : e.ticks_sleep ≤ now
    · simpa [hc] using ih.cons₂ e
    · simp [hc]

/-- On a sorted sleep list, thread_foreach_wake wakes exactly the entries
whose deadline has been reached. -/
lemma wake_fst_eq_filter (l : List SleepEntry) (now : Int) (h : SleepSorted l) :
    (thread_foreach_wake l now).1 =
      l.filter (fun e => decide (e.ticks_sleep ≤ now)) := by
  induction l with
  | nil => simp [thread_foreach_wake]
  | cons e es ih =>
    rcases List.pairwise_cons.mp h with ⟨he, hes⟩
    unfold thread_foreach_wake
    by_cases hc : e.ticks_sleep ≤ now
    · simp [hc, ih hes]
    · have hall : ∀ b ∈ es, ¬ (b.ticks_sleep ≤ now) := fun b hb =>
        fun hle => hc (le_trans (he b hb) hle)
      simp only [hc, if_false]
      have : es.filter (fun e => decide (e.ticks_sleep ≤ now)) = [] := by
        rw [List.filter_eq_nil_iff]
        intro b hb
        simpa using hall b hb
      simp [hc, this]

/-- On a sorted sleep list, thread_foreach_wake leaves exactly the entries
whose deadline lies in the future. -/
lemma wake_snd_eq_filter (l : List SleepEntry) (now : Int) (h : SleepSorted l) :
    (thread_foreach_wake l now).2 =
      l.filter (fun e => decide (now < e.ticks_sleep)) := by
  induction l with
  | nil => simp [thread_foreach_wake]
  | cons e es ih =>
    rcases List.pairwise_cons.mp h with ⟨he, hes⟩
    unfold thread_foreach_wake
    by_cases hc : e.ticks_sleep ≤ now
    · have : ¬ (now < e.ticks_sleep) := not_lt.mpr hc
      simp [hc, ih hes, this]
    · have hnow : now < e.ticks_sleep := not_le.mp hc
      have hall : ∀ b ∈ es, now < b.ticks_sleep := fun b hb =>
        lt_of_lt_of_le hnow (he b hb)
      simp only [hc, if_false]
      have : es.filter (fun e => decide (now < e.ticks_sleep)) = es := by
        rw [List.filter_eq_self]
        intro b hb
        simpa using hall b hb
      simp [hnow, this]

/-! ## Theorems -/

/-- C1: evaluation of thread_mlfqs_update_priority at the failing input.
With recent_cpu = 0 and nice = 0 the computed priority is PRI_MAX as the
claim states, but with recent_cpu = 0 and nice = -1 the computed priority
is 65 > PRI_MAX = 63: the boundary check compares against
FP_FIX(PRI_MAX) = 63 * 2^16 instead of PRI_MAX, so the result is not
clamped into [PRI_MIN, PRI_MAX]. -/
theorem mlfqs_update_priority_escapes_clamp :
    thread_mlfqs_update_priority 0 0 = PRI_MAX ∧
    thread_mlfqs_update_priority 0 (-1) = 65 ∧
    PRI_MAX < thread_mlfqs_update_priority 0 (-1) := by
  refine ⟨by decide, by decide, by decide⟩

/-- C2: evaluation of the fixed-point round-trip at the failing input.
FP_RND(FP_FIX(1)) = 1, but FP_RND(FP_FIX(-1)) = -2: the negative branch
of FP_RND divides by an arithmetic shift (floor) instead of a truncating
division, so every exact negative integer is rounded to its predecessor
and the round-trip is not the identity for negative inputs. -/
theorem fp_rnd_fix_roundtrip_fails_negative :
    FP_RND (FP_FIX 1) = 1 ∧
    FP_RND (FP_FIX (-1)) = -2 ∧
    FP_RND (FP_FIX (-1)) ≠ -1 := by
  refine ⟨by decide, by decide, by decide⟩

/-- C3 counterexample: calling thread_set_priority with the thread's
current effective priority is not observation-free.  For a thread with
priority 31, base priority 31 and no held locks, thread_set_priority 31
takes the true branch (`list_empty(&current->locks)`) and invokes
thread_yield(), contradicting the claim that no yield occurs. -/
theorem set_priority_equal_yields_cex :
    (thread_set_priority false ⟨31, 31, []⟩ 31).2 = true := by
  decide

/-- C3 (amended): under the round-robin policy, calling
thread_set_priority with a value equal to the current effective priority
leaves the effective priority unchanged, touches no ready-queue state and
performs no yield, provided the thread holds at least one lock; only the
stored base priority is overwritten with the given (equal) value. -/
theorem set_priority_equal_with_locks_noop (t : ThreadC) (p : Int)
    (hl : t.locks ≠ []) (hp : p = t.priority) :
    thread_set_priority false t p = ({ t with base_priority := p }, false) := by
  have hne : t.locks.isEmpty = false := by
    cases h : t.locks with
    | nil => exact absurd h hl
    | cons a l => simp [List.isEmpty]
  simp [thread_set_priority, hne, hp]

/-- C3 witness: the amended theorem applied at a concrete thread holding
one lock. -/
theorem set_priority_equal_with_locks_noop_witness :
    (⟨20, 40, [40]⟩ : ThreadC).locks ≠ [] ∧ (40 : Int) = (⟨20, 40, [40]⟩ : ThreadC).priority ∧
    thread_set_priority false ⟨20, 40, [40]⟩ 40 = (⟨40, 40, [40]⟩, false) :=
  ⟨by decide, by decide,
    set_priority_equal_with_locks_noop ⟨20, 40, [40]⟩ 40 (by decide) (by decide)⟩

/-- C4: lowering the priority of a thread that still holds donation-worthy
locks is deferred — thread_set_priority stores the new base priority but
leaves the effective priority unchanged and does not yield — and a
subsequent thread_release_lock recomputes the effective priority as the
maximum of the new base priority and the priorities of the remaining held
locks (just the base priority when no locks remain), at which point the
deferred lowering takes effect. -/
theorem set_priority_deferred_lowering (t : ThreadC) (p lp : Int)
    (hl : t.locks ≠ []) (hlt : p < t.priority) :
    thread_set_priority false t p = ({ t with base_priority := p }, false) ∧
    (thread_release_lock { t with base_priority := p } lp).priority =
      (if (t.locks.erase lp).isEmpty then p
       else max p (locksFrontPriority (t.locks.erase lp))) := by
  have hne : t.locks.isEmpty = false := by
    cases h : t.locks with
    | nil => exact absurd h hl
    | cons a l => simp [List.isEmpty]
  constructor
  · have hngt : ¬ (p > t.priority) := by omega
    simp [thread_set_priority, hne, hngt]
  · unfold thread_release_lock thread_update_priority
    by_cases he : (t.locks.erase lp).isEmpty
    · simp [he]
    · simp only [he, if_false]
      by_cases hc : locksFrontPriority (t.locks.erase lp) > p
      · simp [hc, max_eq_right (le_of_lt hc)]
      · simp [hc, max_eq_left (not_lt.mp hc)]

/-- C4 witness: the deferral theorem applied at a concrete thread holding
locks of priority 40 and 30, lowering base priority to 25 and then
releasing the priority-40 lock; the effective priority becomes
max 25 30 = 30. -/
theorem set_priority_deferred_lowering_witness :
    (⟨20, 40, [40, 30]⟩ : ThreadC).locks ≠ [] ∧ (25 : Int) < (⟨20, 40, [40, 30]⟩ : ThreadC).priority ∧
    (thread_set_priority false ⟨20, 40, [40, 30]⟩ 25 = (⟨25, 40, [40, 30]⟩, false) ∧
      (thread_release_lock ⟨25, 40, [40, 30]⟩ 40).priority =
        (if (([40, 30] : List Int).erase 40).isEmpty then 25
         else max 25 (locksFrontPriority (([40, 30] : List Int).erase 40)))) :=
  ⟨by decide, by decide,
    set_priority_deferred_lowering ⟨20, 40, [40, 30]⟩ 25 40 (by decide) (by decide)⟩

/-- C5: on any sorted sleep-list state (the invariant thread_sleep's
ordered insertion maintains, see sleepSorted_insert) with pairwise
distinct thread ids, thread_foreach_wake now unblocks exactly the
threads whose deadline is ≤ now, leaves in the sleep list exactly the
threads whose deadline is > now, and for a second call with a
non-decreasing now value the two sets of woken thread ids are disjoint:
no thread is ever woken twice. -/
theorem foreach_wake_exact (s : List SleepEntry) (now1 now2 : Int)
    (hsort : SleepSorted s)
    (hnd : (s.map SleepEntry.tid).Nodup)
    (hmono : now1 ≤ now2) :
    (thread_foreach_wake s now1).1 =
      s.filter (fun e => decide (e.ticks_sleep ≤ now1)) ∧
    (thread_foreach_wake s now1).2 =
      s.filter (fun e => decide (now1 < e.ticks_sleep)) ∧
    List.Disjoint ((thread_foreach_wake s now1).1.map SleepEntry.tid)
      ((thread_foreach_wake (thread_foreach_wake s now1).2 now2).1.map
        SleepEntry.tid) := by
  refine ⟨wake_fst_eq_filter s now1 hsort, wake_snd_eq_filter s now1 hsort, ?_⟩
  have hperm : List.Perm
      ((thread_foreach_wake s now1).1 ++ (thread_foreach_wake s now1).2) s := by
    rw [wake_fst_eq_filter s now1 hsort, wake_snd_eq_filter s now1 hsort]
    have hfun : (fun e : SleepEntry => decide (now1 < e.ticks_sleep))
        = fun e : SleepEntry => !(decide (e.ticks_sleep ≤ now1)) := by
      funext e
      by_cases h : e.ticks_sleep ≤ now1
      · simp [h, not_lt.mpr h]
      · simp [h, not_le.mp h]
    rw [hfun]
    exact List.filter_append_perm _ s
  have hnd2 : (((thread_foreach_wake s now1).1 ++
      (thread_foreach_wake s now1).2).map SleepEntry.tid).Nodup :=
    ((hperm.map SleepEntry.tid).nodup_iff).mpr hnd
  rw [List.map_append] at hnd2
  have hdisj := (List.nodup_append.mp hnd2).2.2
  have hsub : ((thread_foreach_wake (thread_foreach_wake s now1).2 now2).1.map
      SleepEntry.tid) ⊆ ((thread_foreach_wake s now1).2.map SleepEntry.tid) :=
    ((wake_fst_sublist _ now2).map SleepEntry.tid).subset
  exact fun a ha hb => hdisj ha (hsub hb)

/-- C5 witness: the wake theorem applied to the concrete sleep list
[(tid 1, deadline 5), (tid 2, deadline 10)] with now = 7 and then
now = 12. -/
theorem foreach_wake_exact_witness :
    SleepSorted [⟨1, 5⟩, ⟨2, 10⟩] ∧
    (([⟨1, 5⟩, ⟨2, 10⟩] : List SleepEntry).map SleepEntry.tid).Nodup ∧
    (7 : Int) ≤ 12 ∧
    ((thread_foreach_wake [⟨1, 5⟩, ⟨2, 10⟩] 7).1 =
        ([⟨1, 5⟩, ⟨2, 10⟩] : List SleepEntry).filter
          (fun e => decide (e.ticks_sleep ≤ 7)) ∧
      (thread_foreach_wake [⟨1, 5⟩, ⟨2, 10⟩] 7).2 =
        ([⟨1, 5⟩, ⟨2, 10⟩] : List SleepEntry).filter
          (fun e => decide (7 < e.ticks_sleep)) ∧
      List.Disjoint
        ((thread_foreach_wake [⟨1, 5⟩, ⟨2, 10⟩] 7).1.map SleepEntry.tid)
        ((thread_foreach_wake
            (thread_foreach_wake [⟨1, 5⟩, ⟨2, 10⟩] 7).2 12).1.map
          SleepEntry.tid)) :=
  ⟨by unfold SleepSorted; decide, by decide, by decide,
    foreach_wake_exact [⟨1, 5⟩, ⟨2, 10⟩] 7 12
      (by unfold SleepSorted; decide) (by decide) (by decide)⟩

/-- C6: for every sequence of enqueue (thread_unblock / thread_yield
insertion) and dequeue (next_thread_to_run) operations run from the empty
ready queue, whenever the resulting queue is non-empty,
next_thread_to_run returns its front entry, and that entry has maximal
effective priority among all residents; among residents of equal
priority it is the one that became ready first (least seq stamp): FIFO,
no reordering on ties. -/
theorem ready_queue_max_fifo (ops : List ReadyOp) (idle_tid : Int)
    (hd x : ReadyEntry)
    (hhd : (runOps ops ([], 0)).1.head? = some hd)
    (hx : x ∈ (runOps ops ([], 0)).1) :
    (next_thread_to_run idle_tid (runOps ops ([], 0)).1).1 = hd.tid ∧
    x.priority ≤ hd.priority ∧
    (x.priority = hd.priority → hd.seq ≤ x.seq) := by
  have hinv := (runOps_invariant ops [] 0 List.Pairwise.nil
    (by intro y hy; cases hy)).1
  cases hq : (runOps ops ([], 0)).1 with
  | nil => rw [hq] at hhd; cases hhd
  | cons a rest =>
    rw [hq] at hhd hx hinv
    have ha : a = hd := by simpa using hhd
    subst ha
    exact ⟨rfl, readyOrdered_head a rest hinv x hx⟩

/-- C6 witness: the ready-queue theorem applied to the concrete operation
sequence enqueue (tid 1, prio 1), (tid 2, prio 5), (tid 3, prio 3),
(tid 4, prio 3), dequeue — afterwards the queue is
[(3,3,seq 2), (4,3,seq 3), (1,1,seq 0)]; the front has maximal priority
3 and, against the equal-priority resident (4,3,seq 3), the earlier
stamp. -/
theorem ready_queue_max_fifo_witness :
    (runOps [ReadyOp.enqueue 1 1, ReadyOp.enqueue 2 5, ReadyOp.enqueue 3 3,
        ReadyOp.enqueue 4 3, ReadyOp.dequeue] ([], 0)).1.head? =
      some ⟨3, 3, 2⟩ ∧
    (⟨4, 3, 3⟩ : ReadyEntry) ∈
      (runOps [ReadyOp.enqueue 1 1, ReadyOp.enqueue 2 5, ReadyOp.enqueue 3 3,
        ReadyOp.enqueue 4 3, ReadyOp.dequeue] ([], 0)).1 ∧
    ((next_thread_to_run 99
        (runOps [ReadyOp.enqueue 1 1, ReadyOp.enqueue 2 5, ReadyOp.enqueue 3 3,
          ReadyOp.enqueue 4 3, ReadyOp.dequeue] ([], 0)).1).1 =
          (⟨3, 3, 2⟩ : ReadyEntry).tid ∧
      (⟨4, 3, 3⟩ : ReadyEntry).priority ≤ (⟨3, 3, 2⟩ : ReadyEntry).priority ∧
      ((⟨4, 3, 3⟩ : ReadyEntry).priority = (⟨3, 3, 2⟩ : ReadyEntry).priority →
        (⟨3, 3, 2⟩ : ReadyEntry).seq ≤ (⟨4, 3, 3⟩ : ReadyEntry).seq)) :=
  ⟨by decide, by decide,
    ready_queue_max_fifo _ 99 ⟨3, 3, 2⟩ ⟨4, 3, 3⟩ (by decide) (by decide)⟩

/-- C7: whenever the ready queue is empty, next_thread_to_run returns the
designated idle thread; and after the idle thread's first run it never
reappears in the ready queue: if the idle thread's id is absent from the
ready queue it is still absent after any thread (the idle thread
included) yields — thread_yield skips the insertion exactly when the
yielding thread is the idle thread — and still absent after any ordered
insertion (thread_unblock) of a thread other than the idle thread. -/
theorem idle_returned_never_reinserted (q : List ReadyEntry) (idle_tid : Int)
    (current e : ReadyEntry) :
    (q = [] → (next_thread_to_run idle_tid q).1 = idle_tid) ∧
    (idle_tid ∉ q.map ReadyEntry.tid →
      idle_tid ∉ (thread_yield_ready current idle_tid q).map ReadyEntry.tid) ∧
    (e.tid ≠ idle_tid → idle_tid ∉ q.map ReadyEntry.tid →
      idle_tid ∉ (insert_ready e q).map ReadyEntry.tid) := by
  have hins : ∀ f : ReadyEntry, f.tid ≠ idle_tid →
      idle_tid ∉ q.map ReadyEntry.tid →
      idle_tid ∉ (insert_ready f q).map ReadyEntry.tid := by
    intro f hf hnot hmem
    rcases List.mem_map.mp hmem with ⟨b, hb, hbid⟩
    rcases (mem_insert_ready b f q).mp hb with rfl | hb
    · exact hf hbid
    · exact hnot (List.mem_map.mpr ⟨b, hb, hbid⟩)
  refine ⟨?_, ?_, hins e⟩
  · intro hq
    subst hq
    rfl
  · intro hnot
    unfold thread_yield_ready
    by_cases hc : current.tid = idle_tid
    · simpa [hc] using hnot
    · simp only [hc, if_false]
      exact hins current hc hnot

/-- C7 witness: the idle-thread theorem applied at the empty queue with
idle id 9, a yielding thread of id 7 and an unblocked thread of id 8:
next_thread_to_run returns 9, and 9 is absent from the queue after the
yield and after the insertion. -/
theorem idle_returned_never_reinserted_witness :
    (next_thread_to_run 9 ([] : List ReadyEntry)).1 = 9 ∧
    (9 : Int) ∉ (thread_yield_ready ⟨7, 31, 0⟩ 9 ([] : List ReadyEntry)).map
      ReadyEntry.tid ∧
    (9 : Int) ∉ (insert_ready ⟨8, 31, 1⟩ ([] : List ReadyEntry)).map
      ReadyEntry.tid :=
  ⟨(idle_returned_never_reinserted [] 9 ⟨7, 31, 0⟩ ⟨8, 31, 1⟩).1 rfl,
    (idle_returned_never_reinserted [] 9 ⟨7, 31, 0⟩ ⟨8, 31, 1⟩).2.1 (by decide),
    (idle_returned_never_reinserted [] 9 ⟨7, 31, 0⟩ ⟨8, 31, 1⟩).2.2
      (by decide) (by decide)⟩

/-- C8: on the per-second MLFQS recomputation, for any non-negative
load_avg small enough that multiplying by 59 stays within 32 bits and any
moderate ready-list length, thread_mlfqs_update_load_avg computes exactly
(59/60)·load_avg + (1/60)·ready_thread_count in 17.16 fixed-point
arithmetic, where ready_thread_count is the ready-list length plus one
when the running thread is not the idle thread. -/
theorem mlfqs_load_avg_formula (l : Int) (k : Nat) (b : Bool)
    (hl0 : 0 ≤ l) (hl : l ≤ 2 ^ 25) (hk : k ≤ 10000) :
    thread_mlfqs_update_load_avg l k b =
      spec_load_avg l ((k : Int) + (if b then 0 else 1)) := by
  have hr0 : 0 ≤ mlfqs_ready_threads k b := by
    unfold mlfqs_ready_threads
    cases b <;> simp <;> omega
  have hr : mlfqs_ready_threads k b ≤ 10001 := by
    unfold mlfqs_ready_threads
    cases b <;> simp <;> omega
  have h := load_avg_core l (mlfqs_ready_threads k b) hl0 hl hr0 hr
  simpa [thread_mlfqs_update_load_avg, mlfqs_ready_threads] using h

/-- C8 witness: the load-average theorem applied at load_avg = 65536
(the fixed-point value 1.0), one ready thread and a non-idle running
thread; both sides evaluate to 66627 = tdiv(59·65536, 60) + tdiv(2·65536, 60). -/
theorem mlfqs_load_avg_formula_witness :
    (0 : Int) ≤ 65536 ∧ (65536 : Int) ≤ 2 ^ 25 ∧ (1 : Nat) ≤ 10000 ∧
    thread_mlfqs_update_load_avg 65536 1 false =
      spec_load_avg 65536 ((1 : Nat) + (if false then 0 else 1)) :=
  ⟨by decide, by decide, by decide,
    mlfqs_load_avg_formula 65536 1 false (by decide) (by decide) (by decide)⟩

/-- C9: when no free page can be obtained for the new thread control
block, thread_create returns the distinguished failure value TID_ERROR
to the creator without retrying and without modifying any scheduler
state — the all-threads list, the ready queue and the tid counter are
returned exactly as they were. -/
theorem thread_create_alloc_failure (name : String) (priority : Int)
    (s : KernelState) :
    thread_create none name priority s = (TID_ERROR, s) := rfl

/-- C10: thread_from_tid returns the unique live thread whose id equals
the requested tid when one exists in the all-threads list (uniqueness
holding because the tids are pairwise distinct) and returns NULL (none)
otherwise; allocate_tid hands out strictly ascending, never-reused ids,
which is what keeps the tids in the all-threads list pairwise
distinct. -/
theorem thread_from_tid_unique (all : List TCB) (tid : Int) (t : TCB)
    (k : Nat) (n : Int) (hnd : (all.map TCB.tid).Nodup) :
    ((t ∈ all ∧ t.tid = tid) → thread_from_tid all tid = some t) ∧
    ((∀ u ∈ all, u.tid ≠ tid) → thread_from_tid all tid = none) ∧
    (allocate_tids k n).Pairwise (· < ·) := by
  refine ⟨fun h => find_tid_of_mem all tid t hnd h.1 h.2, ?_,
    allocate_tids_ascending k n⟩
  intro hnone
  unfold thread_from_tid
  rw [List.find?_eq_none]
  intro u hu
  simpa using hnone u hu

/-- C10 witness: the lookup theorem applied to the concrete all-threads
list [(tid 1, main), (tid 2, idle)], looking up tid 2, with three tids
allocated from counter 1. -/
theorem thread_from_tid_unique_witness :
    ((([⟨1, "main", 31⟩, ⟨2, "idle", 0⟩] : List TCB).map TCB.tid).Nodup) ∧
    ((((⟨2, "idle", 0⟩ : TCB) ∈ ([⟨1, "main", 31⟩, ⟨2, "idle", 0⟩] : List TCB) ∧
        (⟨2, "idle", 0⟩ : TCB).tid = 2) →
      thread_from_tid [⟨1, "main", 31⟩, ⟨2, "idle", 0⟩] 2 = some ⟨2, "idle", 0⟩) ∧
    ((∀ u ∈ ([⟨1, "main", 31⟩, ⟨2, "idle", 0⟩] : List TCB), u.tid ≠ 2) →
      thread_from_tid [⟨1, "main", 31⟩, ⟨2, "idle", 0⟩] 2 = none) ∧
    (allocate_tids 3 1).Pairwise (· < ·)) :=
  ⟨by decide,
    thread_from_tid_unique [⟨1, "main", 31⟩, ⟨2, "idle", 0⟩] 2 ⟨2, "idle", 0⟩ 3 1
      (by decide)⟩

end PintOS
